import Mathlib

/-!
Shallow embedding of the engine.io server core: the payload codec
(package parser, file with ppp.Encode / ppp.Decode / writePacket /
readPacketLength / readPacketString / readPacket) and the session state
machine (socketImpl with Send / Close / accept / isHeartbeat / newSocket).

Byte strings are `List Nat` with entries below 256 (Go `[]byte`); machine
integers of the source (`int`, `uint32`) are `Nat`.  The single-packet
string/base64 encoders and the parser constants live in a part of the
repository that is not among the given source files; those definitions are
modelled from the spec and say so in their doc comments.
-/

/-- Modelled from the spec (the parser package's Packet struct is not among
the source files): a packet has a type from the closed 7-element set, a
payload (bytes), and an option flag distinguishing a string payload from an
opaque binary payload (the source's `packet.Option&BINARY == BINARY` test). -/
structure Packet where
  ptype : Fin 7
  data : List Nat
  binary : Bool
deriving DecidableEq

/-- Modelled from the spec (scenario section pins the wire digits):
packet type OPEN. -/
def OPEN : Fin 7 := 0
/-- Modelled from the spec: packet type CLOSE, wire digit 1. -/
def CLOSE : Fin 7 := 1
/-- Modelled from the spec: packet type PING, wire digit 2. -/
def PING : Fin 7 := 2
/-- Modelled from the spec: packet type PONG, wire digit 3. -/
def PONG : Fin 7 := 3
/-- Modelled from the spec: packet type MESSAGE, wire digit 4. -/
def MESSAGE : Fin 7 := 4
/-- Modelled from the spec: packet type UPGRADE, wire digit 5. -/
def UPGRADE : Fin 7 := 5
/-- Modelled from the spec: packet type NOOP, wire digit 6. -/
def NOOP : Fin 7 := 6

/-- One accepting step of Go's `utf8.DecodeRune`: `some (c, w)` when the
input starts with a valid `w`-byte UTF-8 encoding of the scalar value `c`,
`none` otherwise (empty input, invalid leading byte, truncated or
out-of-range continuation bytes).  The second-byte windows for leading
bytes 224/237 (3-byte) and 240/244 (4-byte) are Go's acceptance table. -/
def decodeChar (l : List Nat) : Option (Nat × Nat) :=
  if l.length = 0 then none
  else if l.getD 0 0 < 128 then some (l.getD 0 0, 1)
  else if l.getD 0 0 < 194 then none
  else if l.getD 0 0 < 224 then
    if 2 ≤ l.length ∧ 128 ≤ l.getD 1 0 ∧ l.getD 1 0 < 192 then
      some ((l.getD 0 0 - 192) * 64 + (l.getD 1 0 - 128), 2)
    else none
  else if l.getD 0 0 < 240 then
    if 3 ≤ l.length ∧
        (if l.getD 0 0 = 224 then 160 else 128) ≤ l.getD 1 0 ∧
        l.getD 1 0 < (if l.getD 0 0 = 237 then 160 else 192) ∧
        128 ≤ l.getD 2 0 ∧ l.getD 2 0 < 192 then
      some ((l.getD 0 0 - 224) * 4096 + (l.getD 1 0 - 128) * 64 + (l.getD 2 0 - 128), 3)
    else none
  else if l.getD 0 0 < 245 then
    if 4 ≤ l.length ∧
        (if l.getD 0 0 = 240 then 144 else 128) ≤ l.getD 1 0 ∧
        l.getD 1 0 < (if l.getD 0 0 = 244 then 144 else 192) ∧
        128 ≤ l.getD 2 0 ∧ l.getD 2 0 < 192 ∧ 128 ≤ l.getD 3 0 ∧ l.getD 3 0 < 192 then
      some ((l.getD 0 0 - 240) * 262144 + (l.getD 1 0 - 128) * 4096 +
            (l.getD 2 0 - 128) * 64 + (l.getD 3 0 - 128), 4)
    else none
  else none

theorem decodeChar_width (l : List Nat) (c w : Nat) (h : decodeChar l = some (c, w)) :
    1 ≤ w ∧ w ≤ l.length := by
  unfold decodeChar at h
  split_ifs at h
  all_goals first
    | exact Option.noConfusion h
    | (injection h with h9; injection h9 with hc hw; subst hw; omega)

set_option maxHeartbeats 1600000 in
theorem decodeChar_append (l r : List Nat) (c w : Nat) (h : decodeChar l = some (c, w)) :
    decodeChar (l ++ r) = some (c, w) := by
  have hw := decodeChar_width l c w h
  have hlen2 : (l ++ r).length = l.length + r.length := by simp
  have hg : ∀ i, i < l.length → (l ++ r).getD i 0 = l.getD i 0 :=
    fun i hi => List.getD_append l r 0 i hi
  unfold decodeChar at h ⊢
  split_ifs at h
  all_goals first
    | exact Option.noConfusion h
    | ((try rw [hg 0 (by omega)]) <;>
       (try rw [hg 1 (by omega)]) <;>
       (try rw [hg 2 (by omega)]) <;>
       (try rw [hg 3 (by omega)]) <;>
       split_ifs <;> first | exact h | omega | (exfalso; omega))

/-- Width taken by one `utf8.DecodeRune` step: the width of a valid leading
sequence, `1` on any invalid non-empty input (Go returns `RuneError, 1`),
`0` on empty input. -/
def runeWidth (l : List Nat) : Nat :=
  match decodeChar l with
  | some x => x.2
  | none =>
    match l with
    | [] => 0
    | _ :: _ => 1

theorem runeWidth_pos (l : List Nat) (h : l ≠ []) : 1 ≤ runeWidth l := by
  unfold runeWidth
  match h2 : decodeChar l with
  | some x => exact (decodeChar_width l x.1 x.2 (by rw [h2])).1
  | none =>
    match l with
    | [] => exact absurd rfl h
    | _ :: _ => exact Nat.le_refl 1

theorem runeWidth_eq (l : List Nat) (c w : Nat) (h : decodeChar l = some (c, w)) :
    runeWidth l = w := by
  unfold runeWidth
  rw [h]

/-- Go `utf8.RuneCount`: the number of `DecodeRune` steps that consume the
byte string. -/
def runeCount (l : List Nat) : Nat :=
  if h : l = [] then 0
  else 1 + runeCount (l.drop (runeWidth l))
termination_by l.length
decreasing_by
  have h1 := runeWidth_pos l h
  have h2 : 0 < l.length := by
    cases l with
    | nil => exact absurd rfl h
    | cons a t => simp
  simp only [List.length_drop]
  omega

/-- Modelled from the spec: a byte string is well-formed UTF-8 when it is a
concatenation of valid encoded scalar values.  The spec's string-codec
error list includes "invalid UTF-8 in string mode". -/
def validUtf8 (l : List Nat) : Bool :=
  if h : l = [] then true
  else
    match h2 : decodeChar l with
    | none => false
    | some x => validUtf8 (l.drop x.2)
termination_by l.length
decreasing_by
  have h1 := (decodeChar_width l x.1 x.2 (by rw [h2])).1
  have h3 : 0 < l.length := by
    cases l with
    | nil => exact absurd rfl h
    | cons a t => simp
  simp only [List.length_drop]
  omega

theorem runeCount_step (l : List Nat) (c w : Nat) (h : decodeChar l = some (c, w)) :
    runeCount l = 1 + runeCount (l.drop w) := by
  have hne : l ≠ [] := by
    intro he
    rw [he] at h
    simp [decodeChar] at h
  rw [runeCount]
  simp only [hne, dite_false]
  rw [runeWidth_eq l c w h]

theorem validUtf8_inv (l : List Nat) (hne : l ≠ []) (hv : validUtf8 l = true) :
    ∃ c w, decodeChar l = some (c, w) ∧ validUtf8 (l.drop w) = true := by
  rw [validUtf8] at hv
  simp only [hne, dite_false] at hv
  split at hv
  · exact absurd hv (by simp)
  · rename_i x heq
    exact ⟨x.1, x.2, heq, hv⟩

/-- A Unicode scalar value: below 0x110000 and not a surrogate. -/
def ValidScalar (c : Nat) : Prop :=
  c < 1114112 ∧ ¬(55296 ≤ c ∧ c ≤ 57343)

instance (c : Nat) : Decidable (ValidScalar c) := by
  unfold ValidScalar; infer_instance

/-- Go `utf8.EncodeRune` on a valid scalar value: the standard 1-4 byte
UTF-8 encoding. -/
def utf8EncodeChar (c : Nat) : List Nat :=
  if c < 128 then [c]
  else if c < 2048 then [192 + c / 64, 128 + c % 64]
  else if c < 65536 then [224 + c / 4096, 128 + c / 64 % 64, 128 + c % 64]
  else [240 + c / 262144, 128 + c / 4096 % 64, 128 + c / 64 % 64, 128 + c % 64]

/-- UTF-8 byte sequence of a list of scalar values. -/
def utf8Bytes : List Nat → List Nat
  | [] => []
  | c :: rest => utf8EncodeChar c ++ utf8Bytes rest

theorem getD_one (a d : Nat) (l : List Nat) : (a :: l).getD 1 d = l.getD 0 d := rfl

theorem getD_two (a d : Nat) (l : List Nat) : (a :: l).getD 2 d = l.getD 1 d := rfl

theorem getD_three (a d : Nat) (l : List Nat) : (a :: l).getD 3 d = l.getD 2 d := rfl

theorem decodeChar_utf8EncodeChar (c : Nat) (r : List Nat) (h : ValidScalar c) :
    decodeChar (utf8EncodeChar c ++ r) = some (c, (utf8EncodeChar c).length) := by
  obtain ⟨h1, h2⟩ := h
  by_cases hc1 : c < 128
  · rw [show utf8EncodeChar c = [c] from by unfold utf8EncodeChar; rw [if_pos hc1]]
    unfold decodeChar
    simp only [List.cons_append, List.nil_append, List.length_cons, List.length_nil,
      List.getD_cons_zero, getD_one, getD_two, getD_three]
    rw [if_neg (by omega), if_pos hc1]
  · by_cases hc2 : c < 2048
    · rw [show utf8EncodeChar c = [192 + c / 64, 128 + c % 64] from by
        unfold utf8EncodeChar; rw [if_neg hc1, if_pos hc2]]
      unfold decodeChar
      simp only [List.cons_append, List.nil_append, List.length_cons, List.length_nil,
        List.getD_cons_zero, getD_one, getD_two, getD_three]
      rw [if_neg (by omega), if_neg (by omega), if_neg (by omega), if_pos (by omega),
        if_pos (by omega)]
      simp only [Option.some.injEq, Prod.mk.injEq, and_true]
      omega
    · by_cases hc3 : c < 65536
      · rw [show utf8EncodeChar c = [224 + c / 4096, 128 + c / 64 % 64, 128 + c % 64] from by
          unfold utf8EncodeChar; rw [if_neg hc1, if_neg hc2, if_pos hc3]]
        unfold decodeChar
        simp only [List.cons_append, List.nil_append, List.length_cons, List.length_nil,
          List.getD_cons_zero, getD_one, getD_two, getD_three]
        rw [if_neg (by omega), if_neg (by omega), if_neg (by omega), if_neg (by omega),
          if_pos (by omega), if_pos (by split_ifs <;> omega)]
        simp only [Option.some.injEq, Prod.mk.injEq, and_true]
        omega
      · rw [show utf8EncodeChar c =
            [240 + c / 262144, 128 + c / 4096 % 64, 128 + c / 64 % 64, 128 + c % 64] from by
          unfold utf8EncodeChar; rw [if_neg hc1, if_neg hc2, if_neg hc3]]
        unfold decodeChar
        simp only [List.cons_append, List.nil_append, List.length_cons, List.length_nil,
          List.getD_cons_zero, getD_one, getD_two, getD_three]
        rw [if_neg (by omega), if_neg (by omega), if_neg (by omega), if_neg (by omega),
          if_neg (by omega), if_pos (by omega), if_pos (by split_ifs <;> omega)]
        simp only [Option.some.injEq, Prod.mk.injEq, and_true]
        omega

theorem utf8EncodeChar_ne_nil (c : Nat) : utf8EncodeChar c ≠ [] := by
  unfold utf8EncodeChar
  split_ifs <;> simp

theorem validUtf8_utf8Bytes (cs : List Nat) (h : ∀ c ∈ cs, ValidScalar c) :
    validUtf8 (utf8Bytes cs) = true := by
  induction cs with
  | nil => simp [utf8Bytes, validUtf8]
  | cons c rest ih =>
    have hc := h c (List.mem_cons_self c rest)
    have hdc := decodeChar_utf8EncodeChar c (utf8Bytes rest) hc
    have hne : utf8EncodeChar c ++ utf8Bytes rest ≠ [] := by
      simp [utf8EncodeChar_ne_nil c]
    have hrest : ∀ x ∈ rest, ValidScalar x := fun x hx => h x (List.mem_cons_of_mem c hx)
    show validUtf8 (utf8EncodeChar c ++ utf8Bytes rest) = true
    rw [validUtf8]
    simp only [hne, dite_false]
    split
    · rename_i heq
      rw [hdc] at heq
      exact Option.noConfusion heq
    · rename_i x heq
      rw [hdc] at heq
      injection heq with he
      rw [← he]
      simp only
      rw [List.drop_left]
      exact ih hrest

theorem runeCount_utf8Bytes (cs : List Nat) (h : ∀ c ∈ cs, ValidScalar c) :
    runeCount (utf8Bytes cs) = cs.length := by
  induction cs with
  | nil => simp [utf8Bytes, runeCount]
  | cons c rest ih =>
    have hc := h c (List.mem_cons_self c rest)
    have hdc := decodeChar_utf8EncodeChar c (utf8Bytes rest) hc
    have hrest : ∀ x ∈ rest, ValidScalar x := fun x hx => h x (List.mem_cons_of_mem c hx)
    show runeCount (utf8EncodeChar c ++ utf8Bytes rest) = (c :: rest).length
    rw [runeCount_step _ _ _ hdc, List.drop_left, ih hrest]
    simp only [List.length_cons]
    omega

/-- Source `readPacketString` (payload file): starting from the input, walk
`size` runes (each step consuming `utf8.DecodeRune` width, at least one byte
on non-empty input) and split the input there; never reports an error. -/
def readPacketString (input : List Nat) : Nat → List Nat × List Nat
  | 0 => ([], input)
  | size + 1 =>
    if input = [] then ([], input)
    else
      let w := runeWidth input
      let res := readPacketString (input.drop w) size
      (input.take w ++ res.1, res.2)

theorem readPacketString_rest_le (size : Nat) :
    ∀ input : List Nat, (readPacketString input size).2.length ≤ input.length := by
  induction size with
  | zero => intro input; simp [readPacketString]
  | succ n ih =>
    intro input
    by_cases he : input = []
    · simp [readPacketString, he]
    · simp only [readPacketString, he, if_false]
      have := ih (input.drop (runeWidth input))
      simp only [List.length_drop] at this
      omega

theorem readPacketString_rest_lt (input : List Nat) (size : Nat)
    (h1 : input ≠ []) (h2 : size ≠ 0) :
    (readPacketString input size).2.length < input.length := by
  match size with
  | 0 => exact absurd rfl h2
  | n + 1 =>
    simp only [readPacketString, h1, if_false]
    have hw := runeWidth_pos input h1
    have hlen : 0 < input.length := by
      cases input with
      | nil => exact absurd rfl h1
      | cons a t => simp
    have := readPacketString_rest_le n (input.drop (runeWidth input))
    simp only [List.length_drop] at this
    omega

theorem readPacketString_ascii (l r : List Nat) (h : ∀ b ∈ l, b < 128) :
    readPacketString (l ++ r) l.length = (l, r) := by
  induction l with
  | nil => simp [readPacketString]
  | cons b t ih =>
    have hb : b < 128 := h b (List.mem_cons_self b t)
    have ht : ∀ x ∈ t, x < 128 := fun x hx => h x (List.mem_cons_of_mem b hx)
    have hdc : decodeChar (b :: (t ++ r)) = some (b, 1) := by
      unfold decodeChar
      simp only [List.length_cons, List.getD_cons_zero]
      rw [if_neg (by omega), if_pos hb]
    show readPacketString (b :: (t ++ r)) (t.length + 1) = (b :: t, r)
    simp only [readPacketString, List.cons_ne_nil, if_false]
    rw [runeWidth_eq _ _ _ hdc]
    simp only [List.drop_succ_cons, List.drop_zero]
    rw [ih ht]
    rfl

theorem readPacketString_valid (n : Nat) :
    ∀ l r : List Nat, l.length ≤ n → validUtf8 l = true →
      readPacketString (l ++ r) (runeCount l) = (l, r) := by
  induction n with
  | zero =>
    intro l r hlen hv
    have : l = [] := by
      cases l with
      | nil => rfl
      | cons a t => simp at hlen
    subst this
    simp [runeCount, readPacketString]
  | succ n ih =>
    intro l r hlen hv
    by_cases he : l = []
    · subst he
      simp [runeCount, readPacketString]
    · obtain ⟨c, w, hdc, hv2⟩ := validUtf8_inv l he hv
      obtain ⟨hw1, hw2⟩ := decodeChar_width l c w hdc
      have hdca := decodeChar_append l r c w hdc
      have hcount : runeCount l = 1 + runeCount (l.drop w) := runeCount_step l c w hdc
      have hlen0 : 0 < l.length := by
        cases l with
        | nil => exact absurd rfl he
        | cons a t => simp
      have hne2 : l ++ r ≠ [] := by
        cases l with
        | nil => exact absurd rfl he
        | cons a t => simp
      rw [hcount, Nat.add_comm]
      simp only [readPacketString, hne2, if_false]
      rw [runeWidth_eq _ _ _ hdca]
      have hdrop : (l ++ r).drop w = l.drop w ++ r := List.drop_append_of_le_length hw2
      have htake : (l ++ r).take w = l.take w := List.take_append_of_le_length hw2
      rw [hdrop, htake]
      have hrec : readPacketString (l.drop w ++ r) (runeCount (l.drop w)) = (l.drop w, r) := by
        apply ih
        · simp only [List.length_drop]
          omega
        · exact hv2
      rw [hrec]
      simp only [List.take_append_drop]

/-- Modelled from the spec: the standard base64 alphabet table
(A-Z, a-z, 0-9, plus, slash) indexed by a 6-bit value. -/
def b64Tbl (i : Nat) : Nat :=
  if i < 26 then 65 + i
  else if i < 52 then 71 + i
  else if i < 62 then i - 4
  else if i = 62 then 43
  else 47

/-- Modelled from the spec: inverse lookup of the standard base64 alphabet. -/
def b64Inv (b : Nat) : Option Nat :=
  if 65 ≤ b ∧ b ≤ 90 then some (b - 65)
  else if 97 ≤ b ∧ b ≤ 122 then some (b - 71)
  else if 48 ≤ b ∧ b ≤ 57 then some (b + 4)
  else if b = 43 then some 62
  else if b = 47 then some 63
  else none

/-- Modelled from the spec: standard padded base64 encoding of a byte
string, three bytes to four alphabet characters, with terminal padding. -/
def b64Encode : List Nat → List Nat
  | [] => []
  | [a] => [b64Tbl (a / 4), b64Tbl (a % 4 * 16), 61, 61]
  | [a, b] => [b64Tbl (a / 4), b64Tbl (a % 4 * 16 + b / 16), b64Tbl (b % 16 * 4), 61]
  | a :: b :: c :: rest =>
    b64Tbl (a / 4) :: b64Tbl (a % 4 * 16 + b / 16) :: b64Tbl (b % 16 * 4 + c / 64) ::
      b64Tbl (c % 64) :: b64Encode rest

/-- Modelled from the spec: standard padded base64 decoding, four alphabet
characters to three bytes, with padding handling on the final quantum. -/
def b64Decode : List Nat → Option (List Nat)
  | [] => some []
  | w :: x :: y :: z :: rest =>
    (b64Inv w).bind fun sw =>
    (b64Inv x).bind fun sx =>
    if y = 61 ∧ z = 61 ∧ rest = [] then some [sw * 4 + sx / 16]
    else if z = 61 ∧ rest = [] then
      (b64Inv y).bind fun sy => some [sw * 4 + sx / 16, sx % 16 * 16 + sy / 4]
    else
      (b64Inv y).bind fun sy =>
      (b64Inv z).bind fun sz =>
      (b64Decode rest).bind fun tl =>
      some ((sw * 4 + sx / 16) :: (sx % 16 * 16 + sy / 4) :: (sy % 4 * 64 + sz) :: tl)
  | _ => none

theorem b64Inv_b64Tbl : ∀ i < 64, b64Inv (b64Tbl i) = some i := by decide

theorem b64Tbl_lt (i : Nat) : b64Tbl i < 128 := by
  unfold b64Tbl
  split_ifs <;> omega

theorem b64Tbl_ne_61 (i : Nat) : b64Tbl i ≠ 61 := by
  unfold b64Tbl
  split_ifs <;> omega

theorem b64Encode_all_lt (n : Nat) :
    ∀ bs : List Nat, bs.length ≤ n → ∀ x ∈ b64Encode bs, x < 128 := by
  induction n with
  | zero =>
    intro bs hlen x hx
    match bs with
    | [] => simp [b64Encode] at hx
    | _ :: _ => simp at hlen
  | succ n ih =>
    intro bs hlen x hx
    match bs with
    | [] => simp [b64Encode] at hx
    | [a] =>
      simp only [b64Encode, List.mem_cons, List.not_mem_nil, or_false] at hx
      rcases hx with h | h | h | h <;> subst h <;> first | exact b64Tbl_lt _ | omega
    | [a, b] =>
      simp only [b64Encode, List.mem_cons, List.not_mem_nil, or_false] at hx
      rcases hx with h | h | h | h <;> subst h <;> first | exact b64Tbl_lt _ | omega
    | a :: b :: c :: rest =>
      simp only [b64Encode, List.mem_cons] at hx
      rcases hx with h | h | h | h | h
      · subst h; exact b64Tbl_lt _
      · subst h; exact b64Tbl_lt _
      · subst h; exact b64Tbl_lt _
      · subst h; exact b64Tbl_lt _
      · exact ih rest (by simp at hlen; omega) x h

theorem b64Encode_length (n : Nat) :
    ∀ bs : List Nat, bs.length ≤ n → (b64Encode bs).length = (bs.length + 2) / 3 * 4 := by
  induction n with
  | zero =>
    intro bs hlen
    match bs with
    | [] => simp [b64Encode]
    | _ :: _ => simp at hlen
  | succ n ih =>
    intro bs hlen
    match bs with
    | [] => simp [b64Encode]
    | [a] => simp [b64Encode]
    | [a, b] => simp [b64Encode]
    | a :: b :: c :: rest =>
      simp only [b64Encode, List.length_cons]
      rw [ih rest (by simp at hlen; omega)]
      omega

theorem b64Decode_b64Encode (n : Nat) :
    ∀ bs : List Nat, bs.length ≤ n → (∀ b ∈ bs, b < 256) →
      b64Decode (b64Encode bs) = some bs := by
  induction n with
  | zero =>
    intro bs hlen hb
    match bs with
    | [] => simp [b64Encode, b64Decode]
    | _ :: _ => simp at hlen
  | succ n ih =>
    intro bs hlen hb
    match bs with
    | [] => simp [b64Encode, b64Decode]
    | [a] =>
      have ha : a < 256 := hb a (by simp)
      have h1 := b64Inv_b64Tbl (a / 4) (by omega)
      have h2 := b64Inv_b64Tbl (a % 4 * 16) (by omega)
      show b64Decode [b64Tbl (a / 4), b64Tbl (a % 4 * 16), 61, 61] = some [a]
      simp [b64Decode, h1, h2]
      omega
    | [a, b] =>
      have ha : a < 256 := hb a (by simp)
      have hbb : b < 256 := hb b (by simp)
      have h1 := b64Inv_b64Tbl (a / 4) (by omega)
      have h2 := b64Inv_b64Tbl (a % 4 * 16 + b / 16) (by omega)
      have h3 := b64Inv_b64Tbl (b % 16 * 4) (by omega)
      show b64Decode
          [b64Tbl (a / 4), b64Tbl (a % 4 * 16 + b / 16), b64Tbl (b % 16 * 4), 61] = some [a, b]
      simp [b64Decode, h1, h2, h3, b64Tbl_ne_61]
      omega
    | a :: b :: c :: rest =>
      have ha : a < 256 := hb a (by simp)
      have hbb : b < 256 := hb b (by simp)
      have hc : c < 256 := hb c (by simp)
      have hrest : ∀ x ∈ rest, x < 256 := fun x hx => hb x (by simp [hx])
      have h1 := b64Inv_b64Tbl (a / 4) (by omega)
      have h2 := b64Inv_b64Tbl (a % 4 * 16 + b / 16) (by omega)
      have h3 := b64Inv_b64Tbl (b % 16 * 4 + c / 64) (by omega)
      have h4 := b64Inv_b64Tbl (c % 64) (by omega)
      have hih := ih rest (by simp at hlen; omega) hrest
      show b64Decode
          (b64Tbl (a / 4) :: b64Tbl (a % 4 * 16 + b / 16) :: b64Tbl (b % 16 * 4 + c / 64) ::
            b64Tbl (c % 64) :: b64Encode rest) = some (a :: b :: c :: rest)
      simp [b64Decode, h1, h2, h3, h4, hih, b64Tbl_ne_61]
      omega

/-- Decimal digits of a positive number, least significant first. -/
def decDigitsRev (n : Nat) : List Nat :=
  if n = 0 then []
  else (48 + n % 10) :: decDigitsRev (n / 10)
termination_by n
decreasing_by exact Nat.div_lt_self (by omega) (by omega)

/-- ASCII decimal representation, as written by the source's
`fmt.Sprintf` with the d verb on a non-negative int. -/
def natToDec (n : Nat) : List Nat :=
  if n = 0 then [48] else (decDigitsRev n).reverse

/-- Go `strconv.Atoi` restricted to the unsigned decimal forms the payload
codec produces (the source never writes signed or padded prefixes):
`some` of the value on a non-empty all-digit string, `none` otherwise. -/
def atoi (l : List Nat) : Option Nat :=
  if l = [] then none
  else if l.all (fun b => 48 ≤ b ∧ b ≤ 57) then
    some (l.foldl (fun acc b => acc * 10 + (b - 48)) 0)
  else none

theorem decDigitsRev_digits (n : Nat) : ∀ b ∈ decDigitsRev n, 48 ≤ b ∧ b ≤ 57 := by
  induction n using Nat.strong_induction_on with
  | _ n ih =>
    intro b hb
    rw [decDigitsRev] at hb
    by_cases h0 : n = 0
    · simp [h0] at hb
    · simp only [h0, if_false, List.mem_cons] at hb
      rcases hb with h | h
      · omega
      · exact ih (n / 10) (Nat.div_lt_self (by omega) (by omega)) b h

theorem natToDec_digits (n : Nat) : ∀ b ∈ natToDec n, 48 ≤ b ∧ b ≤ 57 := by
  unfold natToDec
  by_cases h0 : n = 0
  · simp [h0]
  · simp only [h0, if_false]
    intro b hb
    exact decDigitsRev_digits n b (List.mem_reverse.mp hb)

theorem natToDec_ne_nil (n : Nat) : natToDec n ≠ [] := by
  unfold natToDec
  by_cases h0 : n = 0
  · simp [h0]
  · simp only [h0, if_false]
    rw [decDigitsRev]
    simp [h0]

theorem foldl_decDigitsRev (n : Nat) :
    ∀ acc : Nat,
      (decDigitsRev n).reverse.foldl (fun acc b => acc * 10 + (b - 48)) acc =
        acc * 10 ^ (decDigitsRev n).length + n := by
  induction n using Nat.strong_induction_on with
  | _ n ih =>
    intro acc
    by_cases h0 : n = 0
    · subst h0
      rw [decDigitsRev]
      simp
    · rw [decDigitsRev]
      simp only [h0, if_false, List.reverse_cons, List.foldl_append, List.foldl_cons,
        List.foldl_nil, List.length_cons]
      rw [ih (n / 10) (Nat.div_lt_self (by omega) (by omega)) acc]
      have hpow : 10 ^ ((decDigitsRev (n / 10)).length + 1) =
          10 ^ (decDigitsRev (n / 10)).length * 10 := pow_succ 10 _
      rw [hpow]
      have h10 : n % 10 ≤ 9 := by omega
      ring_nf
      omega

theorem atoi_natToDec (n : Nat) : atoi (natToDec n) = some n := by
  unfold atoi
  rw [if_neg (natToDec_ne_nil n)]
  rw [if_pos]
  · by_cases h0 : n = 0
    · subst h0; rfl
    · unfold natToDec
      simp only [h0, if_false]
      rw [foldl_decDigitsRev n 0]
      simp
  · rw [List.all_eq_true]
    intro b hb
    have := natToDec_digits n b hb
    simp only [decide_eq_true_eq]
    exact this

/-- Source `readPacketLength`, loop form: scan for the first colon,
`strconv.Atoi` the prefix before it, and return the parsed length with the
remainder after the colon; no colon in the input is the
"invalid payload string" error.  The accumulator carries the scanned
prefix. -/
def readPacketLengthAux : List Nat → List Nat → Except Unit (Nat × List Nat)
  | _, [] => .error ()
  | pre, b :: rest =>
    if b = 58 then
      match atoi pre with
      | none => .error ()
      | some n => .ok (n, rest)
    else readPacketLengthAux (pre ++ [b]) rest

/-- Source `readPacketLength`: scan from the start of the input. -/
def readPacketLength (input : List Nat) : Except Unit (Nat × List Nat) :=
  readPacketLengthAux [] input

theorem readPacketLengthAux_shrink (input : List Nat) :
    ∀ pre x, readPacketLengthAux pre input = .ok x → x.2.length < input.length := by
  induction input with
  | nil =>
    intro pre x h
    simp [readPacketLengthAux] at h
  | cons b rest ih =>
    intro pre x h
    simp only [readPacketLengthAux] at h
    by_cases hb : b = 58
    · rw [if_pos hb] at h
      match ha : atoi pre with
      | none => rw [ha] at h; exact Except.noConfusion h
      | some n =>
        rw [ha] at h
        injection h with h2
        rw [← h2]
        simp
    · rw [if_neg hb] at h
      have := ih (pre ++ [b]) x h
      simp only [List.length_cons]
      omega

theorem readPacketLength_shrink (input : List Nat) (x : Nat × List Nat)
    (h : readPacketLength input = .ok x) : x.2.length < input.length :=
  readPacketLengthAux_shrink input [] x h

theorem readPacketLengthAux_no_colon (input : List Nat) (h : ∀ b ∈ input, b ≠ 58) :
    ∀ pre, readPacketLengthAux pre input = .error () := by
  induction input with
  | nil => intro pre; rfl
  | cons b rest ih =>
    intro pre
    have hb : b ≠ 58 := h b (List.mem_cons_self b rest)
    have hrest : ∀ x ∈ rest, x ≠ 58 := fun x hx => h x (List.mem_cons_of_mem b hx)
    simp only [readPacketLengthAux, hb, if_false]
    exact ih hrest (pre ++ [b])

theorem readPacketLengthAux_digits (ds : List Nat) (hds : ∀ b ∈ ds, b ≠ 58) :
    ∀ pre tail,
      readPacketLengthAux pre (ds ++ 58 :: tail) =
        match atoi (pre ++ ds) with
        | none => .error ()
        | some n => .ok (n, tail) := by
  induction ds with
  | nil =>
    intro pre tail
    simp [readPacketLengthAux]
  | cons d ds2 ih =>
    intro pre tail
    have hd : d ≠ 58 := hds d (List.mem_cons_self d ds2)
    have hds2 : ∀ b ∈ ds2, b ≠ 58 := fun b hb => hds b (List.mem_cons_of_mem d hb)
    show readPacketLengthAux pre (d :: (ds2 ++ 58 :: tail)) = _
    simp only [readPacketLengthAux, hd, if_false]
    rw [ih hds2 (pre ++ [d]) tail]
    simp

theorem readPacketLength_encode (n : Nat) (tail : List Nat) :
    readPacketLength (natToDec n ++ 58 :: tail) = .ok (n, tail) := by
  unfold readPacketLength
  have hds : ∀ b ∈ natToDec n, b ≠ 58 := by
    intro b hb
    have := natToDec_digits n b hb
    omega
  rw [readPacketLengthAux_digits (natToDec n) hds [] tail]
  simp only [List.nil_append]
  rw [atoi_natToDec n]

namespace stringEncoder

/-- Modelled from the spec (the single-packet string encoder is not among
the given source files): output is the character of value 48 plus the type
digit, concatenated with the payload as UTF-8 text; byte strings that are
not well-formed UTF-8 are rejected ("invalid UTF-8 in string mode"). -/
def encode (p : Packet) : Except Unit (List Nat) :=
  if validUtf8 p.data then .ok ((48 + p.ptype.val) :: p.data) else .error ()

/-- Modelled from the spec: strip the leading type digit; empty input and
unknown type digits are errors; the result carries the string option. -/
def decode (input : List Nat) : Option Packet :=
  match input with
  | [] => none
  | b :: rest =>
    if h : 48 ≤ b ∧ b < 55 then some ⟨⟨b - 48, by omega⟩, rest, false⟩ else none

end stringEncoder

namespace base64Encoder

/-- Modelled from the spec (the single-packet base64 encoder is not among
the given source files): the literal character b (98), then the type
digit, then standard padded base64 of the byte payload; the payload is a
Go byte slice, entries 256 and above do not occur and are rejected. -/
def encode (p : Packet) : Except Unit (List Nat) :=
  if p.data.all (fun b => b < 256) then
    .ok (98 :: (48 + p.ptype.val) :: b64Encode p.data)
  else .error ()

/-- Modelled from the spec: recognise the leading b (98), strip it and the
type digit, base64-decode the remainder; the result carries the binary
option. -/
def decode (input : List Nat) : Option Packet :=
  match input with
  | 98 :: b :: rest =>
    if h : 48 ≤ b ∧ b < 55 then
      (b64Decode rest).map (fun bs => ⟨⟨b - 48, by omega⟩, bs, true⟩)
    else none
  | _ => none

end base64Encoder

/-- Source `writePacket`: encode one packet and append
`<decimal length> ':' <encoded form>` to the buffer, where the length
counts UTF-8 code points (`utf8.RuneCount`) of the encoded form when the
packet's BINARY option is clear and bytes (`len`) when it is set; modelled
as returning the appended byte string. -/
def writePacket (packet : Packet) : Except Unit (List Nat) :=
  if packet.binary = false then
    match stringEncoder.encode packet with
    | .error e => .error e
    | .ok data => .ok (natToDec (runeCount data) ++ 58 :: data)
  else
    match base64Encoder.encode packet with
    | .error e => .error e
    | .ok data => .ok (natToDec data.length ++ 58 :: data)

/-- Source `readPacket`: dispatch on the first byte, base64 decoding when
it is the character b (98), string decoding otherwise.  The source indexes
`input[0]` and would panic on empty input, unreachable from `Decode`;
modelled as an error. -/
def readPacket (input : List Nat) : Option Packet :=
  match input with
  | [] => none
  | b :: _ => if b ≠ 98 then stringEncoder.decode input else base64Encoder.decode input

/-- The encoding loop of `ppp.Encode`: append `writePacket` of each packet
to the buffer in order, aborting on the first error. -/
def encodeAll : List Packet → Except Unit (List Nat)
  | [] => .ok []
  | p :: rest =>
    match writePacket p with
    | .error e => .error e
    | .ok u =>
      match encodeAll rest with
      | .error e => .error e
      | .ok v => .ok (u ++ v)

/-- The decoding loop of `ppp.Decode`: while input remains, read a length
prefix when no length is pending, otherwise split off that many runes with
`readPacketString` and decode them as a single packet with `readPacket`;
when the input runs out, return the packets collected so far. -/
def decodeLoop (rest : List Nat) (size : Nat) (acc : List Packet) :
    Except Unit (List Packet) :=
  if hne : rest = [] then .ok acc
  else if hs : size = 0 then
    match h2 : readPacketLength rest with
    | .error e => .error e
    | .ok x => decodeLoop x.2 x.1 acc
  else
    match readPacket (readPacketString rest size).1 with
    | none => .error ()
    | some p => decodeLoop (readPacketString rest size).2 0 (acc ++ [p])
termination_by rest.length
decreasing_by
  · exact readPacketLength_shrink rest x h2
  · exact readPacketString_rest_lt rest size hne hs

namespace ppp

/-- Source `ppp.Encode`: an empty batch is the "input packets is empty"
error; otherwise the concatenation of `writePacket` of each packet. -/
def Encode (packets : List Packet) : Except Unit (List Nat) :=
  if packets.length < 1 then .error ()
  else encodeAll packets

/-- Source `ppp.Decode`: run the decode loop from the whole input with no
pending length and no collected packets. -/
def Decode (input : List Nat) : Except Unit (List Packet) :=
  decodeLoop input 0 []

end ppp

theorem validUtf8_step (l : List Nat) (c w : Nat) (h : decodeChar l = some (c, w)) :
    validUtf8 l = validUtf8 (l.drop w) := by
  have hne : l ≠ [] := by
    intro he
    rw [he] at h
    simp [decodeChar] at h
  rw [validUtf8]
  simp only [hne, dite_false]
  split
  · rename_i heq
    rw [h] at heq
    exact Option.noConfusion heq
  · rename_i x heq
    rw [h] at heq
    injection heq with he2
    rw [← he2]

theorem decodeLoop_nil (size : Nat) (acc : List Packet) :
    decodeLoop [] size acc = .ok acc := by
  rw [decodeLoop]
  exact dif_pos rfl

theorem decodeLoop_step_len (input tail : List Nat) (n : Nat) (acc : List Packet)
    (hne : input ≠ []) (h : readPacketLength input = .ok (n, tail)) :
    decodeLoop input 0 acc = decodeLoop tail n acc := by
  rw [decodeLoop, dif_neg hne, dif_pos rfl]
  split
  · rename_i e heq
    rw [h] at heq
    exact Except.noConfusion heq
  · rename_i x heq
    rw [h] at heq
    injection heq with h3
    rw [← h3]

theorem decodeLoop_step_packet (input : List Nat) (size : Nat) (acc : List Packet) (p : Packet)
    (hne : input ≠ []) (hs : size ≠ 0)
    (hp : readPacket (readPacketString input size).1 = some p) :
    decodeLoop input size acc = decodeLoop (readPacketString input size).2 0 (acc ++ [p]) := by
  rw [decodeLoop, dif_neg hne, dif_neg hs]
  split
  · rename_i heq
    rw [hp] at heq
    exact Option.noConfusion heq
  · rename_i q heq
    rw [hp] at heq
    injection heq with h3
    rw [h3]

theorem decodeLoop_unit (p : Packet) (u rest : List Nat) (acc : List Packet)
    (h : writePacket p = .ok u) :
    decodeLoop (u ++ rest) 0 acc = decodeLoop rest 0 (acc ++ [p]) := by
  obtain ⟨⟨v, hv7⟩, pdata, pbin⟩ := p
  unfold writePacket at h
  simp only at h
  by_cases hbin : pbin = false
  · rw [if_pos hbin] at h
    cases he : stringEncoder.encode ⟨⟨v, hv7⟩, pdata, pbin⟩ with
    | error e => rw [he] at h; exact Except.noConfusion h
    | ok data =>
      rw [he] at h
      injection h with h2
      unfold stringEncoder.encode at he
      simp only at he
      by_cases hv : validUtf8 pdata
      swap
      · rw [if_neg hv] at he; exact Except.noConfusion he
      rw [if_pos hv] at he
      injection he with he2
      subst he2
      subst hbin
      have hdc : decodeChar ((48 + v) :: pdata) = some (48 + v, 1) := by
        unfold decodeChar
        simp only [List.length_cons, List.getD_cons_zero]
        rw [if_neg (by omega), if_pos (by omega)]
      have hvdata : validUtf8 ((48 + v) :: pdata) = true := by
        rw [validUtf8_step _ _ _ hdc]
        exact hv
      have hcount : runeCount ((48 + v) :: pdata) = 1 + runeCount pdata :=
        runeCount_step _ _ _ hdc
      have hwalk :
          readPacketString (((48 + v) :: pdata) ++ rest) (runeCount ((48 + v) :: pdata)) =
            ((48 + v) :: pdata, rest) :=
        readPacketString_valid ((48 + v) :: pdata).length ((48 + v) :: pdata) rest
          (Nat.le_refl _) hvdata
      have hrp : readPacket ((48 + v) :: pdata) = some ⟨⟨v, hv7⟩, pdata, false⟩ := by
        simp only [readPacket]
        rw [if_pos (by omega)]
        simp only [stringEncoder.decode]
        rw [dif_pos (show 48 ≤ 48 + v ∧ 48 + v < 55 by omega)]
        refine congrArg some ?_
        have hvv : 48 + v - 48 = v := by omega
        simp [hvv]
      rw [← h2]
      simp only [List.append_assoc, List.cons_append]
      rw [decodeLoop_step_len _ (((48 + v) :: pdata) ++ rest) (runeCount ((48 + v) :: pdata))
        acc ?hne1 ?hlen]
      case hne1 =>
        intro hcontra
        exact natToDec_ne_nil _ (List.append_eq_nil.mp hcontra).1
      case hlen =>
        have := readPacketLength_encode (runeCount ((48 + v) :: pdata))
          (((48 + v) :: pdata) ++ rest)
        simpa using this
      rw [decodeLoop_step_packet (((48 + v) :: pdata) ++ rest)
        (runeCount ((48 + v) :: pdata)) acc ⟨⟨v, hv7⟩, pdata, false⟩ (by simp) (by omega) ?hp]
      case hp => rw [hwalk]; exact hrp
      rw [hwalk]
  · rw [if_neg hbin] at h
    have hbt : pbin = true := by
      cases pbin
      · exact absurd rfl hbin
      · rfl
    subst hbt
    cases he : base64Encoder.encode ⟨⟨v, hv7⟩, pdata, true⟩ with
    | error e => rw [he] at h; exact Except.noConfusion h
    | ok data =>
      rw [he] at h
      injection h with h2
      unfold base64Encoder.encode at he
      simp only at he
      by_cases hall : pdata.all (fun b => decide (b < 256))
      swap
      · rw [if_neg (by simpa using hall)] at he; exact Except.noConfusion he
      rw [if_pos (by simpa using hall)] at he
      injection he with he2
      subst he2
      have hbytes : ∀ b ∈ pdata, b < 256 := by
        intro b hb
        have := List.all_eq_true.mp hall b hb
        simpa using this
      have hascii : ∀ b ∈ 98 :: (48 + v) :: b64Encode pdata, b < 128 := by
        intro b hb
        simp only [List.mem_cons] at hb
        rcases hb with hbe | hbe | hbe
        · omega
        · omega
        · exact b64Encode_all_lt pdata.length pdata (Nat.le_refl _) b hbe
      have hwalk := readPacketString_ascii (98 :: (48 + v) :: b64Encode pdata) rest hascii
      have hrp : readPacket (98 :: (48 + v) :: b64Encode pdata) =
          some ⟨⟨v, hv7⟩, pdata, true⟩ := by
        simp only [readPacket]
        rw [if_neg (by omega)]
        simp only [base64Encoder.decode]
        rw [dif_pos (show 48 ≤ 48 + v ∧ 48 + v < 55 by omega)]
        rw [b64Decode_b64Encode pdata.length pdata (Nat.le_refl _) hbytes]
        refine congrArg some ?_
        have hvv : 48 + v - 48 = v := by omega
        simp [hvv]
      rw [← h2]
      simp only [List.append_assoc, List.cons_append]
      rw [decodeLoop_step_len _ ((98 :: (48 + v) :: b64Encode pdata) ++ rest)
        (98 :: (48 + v) :: b64Encode pdata).length acc ?hne2 ?hlen2]
      case hne2 =>
        intro hcontra
        exact natToDec_ne_nil _ (List.append_eq_nil.mp hcontra).1
      case hlen2 =>
        have := readPacketLength_encode (98 :: (48 + v) :: b64Encode pdata).length
          ((98 :: (48 + v) :: b64Encode pdata) ++ rest)
        simpa using this
      rw [decodeLoop_step_packet ((98 :: (48 + v) :: b64Encode pdata) ++ rest)
        (98 :: (48 + v) :: b64Encode pdata).length acc ⟨⟨v, hv7⟩, pdata, true⟩
        (by simp) (by simp) ?hp2]
      case hp2 =>
        have hlx : (98 :: (48 + v) :: b64Encode pdata).length =
            ((98 :: (48 + v) :: b64Encode pdata) : List Nat).length := rfl
        rw [hwalk]
        exact hrp
      rw [hwalk]

theorem decodeLoop_encodeAll (ps : List Packet) :
    ∀ acc out, encodeAll ps = .ok out → decodeLoop out 0 acc = .ok (acc ++ ps) := by
  induction ps with
  | nil =>
    intro acc out h
    injection h with h2
    rw [← h2]
    simp [decodeLoop_nil]
  | cons p tl ih =>
    intro acc out h
    unfold encodeAll at h
    cases hw : writePacket p with
    | error e => rw [hw] at h; exact Except.noConfusion h
    | ok u =>
      rw [hw] at h
      cases hrest : encodeAll tl with
      | error e => rw [hrest] at h; exact Except.noConfusion h
      | ok vtail =>
        rw [hrest] at h
        injection h with h2
        rw [← h2]
        rw [decodeLoop_unit p u vtail acc hw]
        rw [ih (acc ++ [p]) vtail hrest]
        simp

/-- State of a `socketImpl` (source struct): the `heartbeat` uint32 tick
(stored from `now32()` at creation, refreshed on PING, zeroed by Close;
modelled as `Nat`), the two nullable transports (modelled as identifiers),
and the registered handler slices (only their lengths are observable in
events, so they are modelled as counts). -/
structure SocketState where
  heartbeat : Nat
  transportPrimary : Option Nat
  transportBackup : Option Nat
  nMsgHandlers : Nat
  nUpgradeHandlers : Nat
  nCloseHandlers : Nat
deriving DecidableEq

/-- Observable effects of a socket operation, in temporal order: a packet
written to a transport, a transport closed, the `upgradeEnd` hook invoked
on the backup transport with the primary as argument, and the invocation
of one registered upgrade / close / message handler. -/
inductive Event where
  | wrote (t : Nat) (p : Packet)
  | closedTransport (t : Nat)
  | upgradeEnd (backup primary : Nat)
  | firedUpgradeHandler (i : Nat)
  | firedCloseHandler (i : Nat)
  | firedMsgHandler (i : Nat)
deriving DecidableEq

namespace socketImpl

/-- Source `socketImpl.isHeartbeat` (line 218-220): true exactly when the
atomically loaded heartbeat tick equals zero. -/
def isHeartbeat (s : SocketState) : Bool :=
  s.heartbeat == 0

/-- Source `socketImpl.getTransport`: the primary transport when set, else
the backup; the source panics when both are nil, modelled as `none`. -/
def getTransport (s : SocketState) : Option Nat :=
  match s.transportPrimary with
  | some t => some t
  | none => s.transportBackup

/-- Result of `socketImpl.Send`: the "socket#id is closed" error return,
a successful `write` of the constructed packet to a transport, or the nil
dereference the source would hit with no transport at all. -/
inductive SendResult where
  | closedErr
  | wrote (t : Nat) (p : Packet)
  | crashed
deriving DecidableEq

/-- Source `socketImpl.Send` (lines 113-122): refuse with the closed error
unless `isHeartbeat()`, otherwise build `parser.NewPacket(parser.MESSAGE,
message)` and write it to the backup transport when one is present, else
to the primary.  The message payload and its string/binary nature are the
`message` argument. -/
def Send (s : SocketState) (message : List Nat) (bin : Bool) : SendResult :=
  if !isHeartbeat s then .closedErr
  else
    match s.transportBackup with
    | some t => .wrote t ⟨MESSAGE, message, bin⟩
    | none =>
      match s.transportPrimary with
      | some t => .wrote t ⟨MESSAGE, message, bin⟩
      | none => .crashed

/-- Source `socketImpl.Close` (lines 124-147): return immediately unless
`isHeartbeat()`; otherwise store 0 into the heartbeat, close the primary
then the backup transport when present, and invoke every registered close
handler.  Transport close errors only feed the reason string and are not
modelled. -/
def Close (s : SocketState) : SocketState × List Event :=
  if !isHeartbeat s then (s, [])
  else
    ({ s with heartbeat := 0 },
      (match s.transportPrimary with
        | some t => [Event.closedTransport t]
        | none => []) ++
      (match s.transportBackup with
        | some t => [Event.closedTransport t]
        | none => []) ++
      (List.range s.nCloseHandlers).map Event.firedCloseHandler)

/-- Source `socketImpl.accept` (lines 178-216).  Go mutates the socket in
place and separately returns an error value, so the model always returns
the resulting state and the event trace together with the error status:
effects performed before an early error return stay visible.
`backupCloseErr` is the environment's answer to the one transport close
whose error the source branches on, `tBackup.close()` in the UPGRADE case
(lines 190-192); transport close errors elsewhere only feed the reason
string and are not modelled.  The body of the PING case's goroutine is
modelled as running atomically at time `now`: it refreshes the heartbeat
only under `isHeartbeat()` and answers with a PONG carrying the PING's
payload via `getTransport`, whose both-nil panic is the error status.
CLOSE delegates to `Close`; UPGRADE, when both transports are set, invokes
`upgradeEnd` on the backup with the primary as argument, clears and closes
the backup, then returns the close error before any handler runs when the
close failed, else fires every upgrade handler; MESSAGE fires every
message handler; any other type is the "unsupport packet" error. -/
def accept (s : SocketState) (packet : Packet) (now : Nat) (backupCloseErr : Bool) :
    (SocketState × List Event) × Except Unit Unit :=
  if packet.ptype = CLOSE then (Close s, .ok ())
  else if packet.ptype = UPGRADE then
    match s.transportPrimary, s.transportBackup with
    | some tp, some tb =>
      if backupCloseErr then
        (({ s with transportBackup := none },
          [Event.upgradeEnd tb tp, Event.closedTransport tb]), .error ())
      else
        (({ s with transportBackup := none },
          Event.upgradeEnd tb tp :: Event.closedTransport tb ::
            (List.range s.nUpgradeHandlers).map Event.firedUpgradeHandler), .ok ())
    | _, _ =>
      ((s, (List.range s.nUpgradeHandlers).map Event.firedUpgradeHandler), .ok ())
  else if packet.ptype = PING then
    let s2 := if isHeartbeat s then { s with heartbeat := now } else s
    match getTransport s with
    | some t => ((s2, [Event.wrote t ⟨PONG, packet.data, false⟩]), .ok ())
    | none => ((s2, []), .error ())
  else if packet.ptype = MESSAGE then
    ((s, (List.range s.nMsgHandlers).map Event.firedMsgHandler), .ok ())
  else ((s, []), .error ())

/-- Source `newSocket` (lines 227-237): a fresh socket whose heartbeat is
`now32()` (the creation time, passed here as `t`), no transports attached
yet, and empty handler slices. -/
def newSocket (t : Nat) : SocketState :=
  ⟨t, none, none, 0, 0, 0⟩

/-- Source `socketImpl.OnClose` (lines 40-55): a non-nil handler is
appended to the close handler slice. -/
def OnClose (s : SocketState) : SocketState :=
  { s with nCloseHandlers := s.nCloseHandlers + 1 }

/-- Source `socketImpl.setTransport` (lines 149-159): error when the
primary is already set; otherwise fill the backup first, then the
primary. -/
def setTransport (s : SocketState) (t : Nat) : Except Unit SocketState :=
  match s.transportPrimary with
  | some _ => .error ()
  | none =>
    match s.transportBackup with
    | none => .ok { s with transportBackup := some t }
    | some _ => .ok { s with transportPrimary := some t }

end socketImpl

theorem runeCount_nil : runeCount [] = 0 := by
  rw [runeCount]
  exact dif_pos rfl

theorem runeCount_cons_ne (l : List Nat) (h : l ≠ []) :
    runeCount l = 1 + runeCount (l.drop (runeWidth l)) := by
  rw [runeCount]
  simp [h]

theorem validUtf8_nil : validUtf8 [] = true := by
  rw [validUtf8]
  exact dif_pos rfl

theorem validUtf8_cons_ne (l : List Nat) (h : l ≠ []) :
    validUtf8 l =
      match decodeChar l with
      | none => false
      | some x => validUtf8 (l.drop x.2) := by
  rw [validUtf8]
  simp only [h, dite_false]
  split
  · rename_i heq
    rw [heq]
  · rename_i x heq
    rw [heq]

theorem decDigitsRev_zero : decDigitsRev 0 = [] := by
  rw [decDigitsRev]
  simp

theorem decDigitsRev_ne (n : Nat) (h : n ≠ 0) :
    decDigitsRev n = (48 + n % 10) :: decDigitsRev (n / 10) := by
  rw [decDigitsRev]
  simp [h]

theorem MESSAGE_val : (MESSAGE : Fin 7).val = 4 := rfl

/-- Claim C1: the spec says `Send` is refused with an error exactly when the
heartbeat tick is 0 and must not return the closed error when the tick is
non-zero.  The code inverts this: `isHeartbeat()` tests `heartbeat == 0`,
so on a live socket (tick 7, primary transport 1) `Send` returns the
"socket is closed" error, while on a socket whose tick is already 0 it
proceeds and writes the MESSAGE packet. -/
theorem C1_send_guard_inverted :
    socketImpl.Send ⟨7, some 1, none, 0, 0, 0⟩ [104] false = .closedErr ∧
    socketImpl.Send ⟨0, some 1, none, 0, 0, 0⟩ [104] false =
      .wrote 1 ⟨MESSAGE, [104], false⟩ :=
  ⟨rfl, rfl⟩

/-- Claim C2: the spec says the first `Close` drives the closing transition
and fires each close handler exactly once, later calls being no-ops.  With
the inverted `isHeartbeat()` the code does the opposite: on a fresh socket
(tick 7, one registered close handler) two `Close` calls fire no handler
at all, while on a socket whose tick is 0 every `Close` call fires the
handler again. -/
theorem C2_close_handlers_inverted :
    (socketImpl.Close ⟨7, none, none, 0, 0, 1⟩).2 = [] ∧
    (socketImpl.Close (socketImpl.Close ⟨7, none, none, 0, 0, 1⟩).1).2 = [] ∧
    (socketImpl.Close ⟨0, none, none, 0, 0, 1⟩).2 = [Event.firedCloseHandler 0] ∧
    (socketImpl.Close (socketImpl.Close ⟨0, none, none, 0, 0, 1⟩).1).2 =
      [Event.firedCloseHandler 0] :=
  ⟨rfl, rfl, rfl, rfl⟩

/-- Claim C3: the spec says the heartbeat tick is 0 exactly when the
session is CLOSED.  In the code, invoking `Close` on a freshly created
socket (tick 7) is a no-op that leaves the tick at 7 and performs no
transition, and an inbound PING on a socket whose tick is 0 (CLOSED per
the spec) refreshes the tick to the current time 9, so tick = 0 neither
follows from nor implies the closing transition. -/
theorem C3_heartbeat_iff_closed_violated :
    (socketImpl.Close (socketImpl.newSocket 7)).1.heartbeat = 7 ∧
    (socketImpl.Close (socketImpl.newSocket 7)).2 = [] ∧
    ∀ bce : Bool,
      socketImpl.accept ⟨0, some 1, none, 0, 0, 0⟩ ⟨PING, [], false⟩ 9 bce =
        ((⟨9, some 1, none, 0, 0, 0⟩, [Event.wrote 1 ⟨PONG, [], false⟩]), .ok ()) :=
  ⟨rfl, rfl, fun _ => rfl⟩

/-- Claim C4: decoding the payload encoder's output returns exactly the
encoded packet list, in order, for every batch the encoder accepts (the
encoder itself rejects empty batches, non-UTF-8 string payloads and
out-of-byte-range binary payloads). -/
theorem C4_payload_roundtrip (packets : List Packet) (out : List Nat)
    (henc : ppp.Encode packets = .ok out) :
    ppp.Decode out = .ok packets := by
  unfold ppp.Encode at henc
  by_cases hlen : packets.length < 1
  · rw [if_pos hlen] at henc
    exact Except.noConfusion henc
  · rw [if_neg hlen] at henc
    unfold ppp.Decode
    have h := decodeLoop_encodeAll packets [] out henc
    simpa using h

set_option maxHeartbeats 1600000 in
set_option maxRecDepth 8192 in
/-- Witness for C4 at a concrete two-packet batch: a string MESSAGE with a
two-byte UTF-8 character in its payload and a binary MESSAGE. -/
theorem C4_payload_roundtrip_witness :
    ppp.Decode [52, 58, 52, 104, 105, 206, 169, 54, 58, 98, 52, 65, 80, 56, 81] =
      .ok [⟨MESSAGE, [104, 105, 206, 169], false⟩, ⟨MESSAGE, [0, 255, 16], true⟩] :=
  C4_payload_roundtrip
    [⟨MESSAGE, [104, 105, 206, 169], false⟩, ⟨MESSAGE, [0, 255, 16], true⟩]
    [52, 58, 52, 104, 105, 206, 169, 54, 58, 98, 52, 65, 80, 56, 81]
    (by
      have hw1 : writePacket ⟨MESSAGE, [104, 105, 206, 169], false⟩ =
          .ok [52, 58, 52, 104, 105, 206, 169] := by
        simp [writePacket, stringEncoder.encode, validUtf8_cons_ne, validUtf8_nil,
          decodeChar, runeCount_cons_ne, runeCount_nil, runeWidth, natToDec,
          decDigitsRev_ne, decDigitsRev_zero, MESSAGE_val]
      have hw2 : writePacket ⟨MESSAGE, [0, 255, 16], true⟩ =
          .ok [54, 58, 98, 52, 65, 80, 56, 81] := by
        simp [writePacket, base64Encoder.encode, natToDec, decDigitsRev_ne,
          decDigitsRev_zero, b64Encode, b64Tbl, MESSAGE_val]
      unfold ppp.Encode
      rw [if_neg (by decide)]
      simp [encodeAll, hw1, hw2])

set_option maxHeartbeats 1600000 in
set_option maxRecDepth 8192 in
/-- Claim C5 as stated is false on the code: the spec's example demands a
length prefix of 1 for a string-mode payload that is the single character
U+1F600 and 4 for the same payload in byte mode, but `writePacket` counts
the whole encoded form, so the string encoding is "2:" followed by the
type digit and the four UTF-8 bytes (prefix 2, not 1), and the byte-mode
encoding is "10:" followed by b, the type digit and eight base64
characters (prefix 10, not 4). -/
theorem C5_emoji_length_counterexample :
    writePacket ⟨MESSAGE, [240, 159, 152, 128], false⟩ =
      .ok [50, 58, 52, 240, 159, 152, 128] ∧
    writePacket ⟨MESSAGE, [240, 159, 152, 128], true⟩ =
      .ok [49, 48, 58, 98, 52, 56, 74, 43, 89, 103, 65, 61, 61] ∧
    (50 : Nat) ≠ 49 ∧ (49 : Nat) :: 48 :: [] ≠ 52 :: [] := by
  refine ⟨?_, ?_, by decide, by decide⟩
  · simp [writePacket, stringEncoder.encode, validUtf8_cons_ne, validUtf8_nil, decodeChar,
      runeCount_cons_ne, runeCount_nil, runeWidth, natToDec, decDigitsRev_ne,
      decDigitsRev_zero, MESSAGE_val]
  · simp [writePacket, base64Encoder.encode, natToDec, decDigitsRev_ne, decDigitsRev_zero,
      b64Encode, b64Tbl, MESSAGE_val]

/-- Claim C5 (amended): the length prefix written before the colon counts
UTF-8 code points of the whole encoded form when the packet is
string-encoded (so a payload of `n` characters gets prefix `1 + n`, the
type digit included) and bytes of the whole encoded form when it is
base64-encoded (so a payload of `n` bytes gets prefix
`2 + 4 * ceil(n / 3)`, the b marker and type digit included); in
particular the single-character U+1F600 payload gets prefix 2 in string
mode and 10 in byte mode, not 1 and 4. -/
theorem C5_length_prefix_amended (t : Fin 7) (cs bs : List Nat)
    (hcs : ∀ c ∈ cs, ValidScalar c) (hbs : ∀ b ∈ bs, b < 256) :
    writePacket ⟨t, utf8Bytes cs, false⟩ =
      .ok (natToDec (1 + cs.length) ++ 58 :: (48 + t.val) :: utf8Bytes cs) ∧
    writePacket ⟨t, bs, true⟩ =
      .ok (natToDec (2 + (bs.length + 2) / 3 * 4) ++
        58 :: 98 :: (48 + t.val) :: b64Encode bs) := by
  constructor
  · have hval := validUtf8_utf8Bytes cs hcs
    have hdc : decodeChar ((48 + t.val) :: utf8Bytes cs) = some (48 + t.val, 1) := by
      have ht := t.isLt
      unfold decodeChar
      simp only [List.length_cons, List.getD_cons_zero]
      rw [if_neg (by omega), if_pos (by omega)]
    have hc1 : runeCount ((48 + t.val) :: utf8Bytes cs) = 1 + cs.length := by
      rw [runeCount_step _ _ _ hdc]
      show 1 + runeCount (((48 + t.val) :: utf8Bytes cs).drop 1) = _
      simp only [List.drop_succ_cons, List.drop_zero]
      rw [runeCount_utf8Bytes cs hcs]
    simp [writePacket, stringEncoder.encode, hval, hc1]
  · have hall : (bs.all fun b => decide (b < 256)) = true := by
      rw [List.all_eq_true]
      intro b hb
      simpa using hbs b hb
    have hlen : (98 :: (48 + t.val) :: b64Encode bs).length = 2 + (bs.length + 2) / 3 * 4 := by
      simp only [List.length_cons]
      rw [b64Encode_length bs.length bs (Nat.le_refl _)]
      omega
    simp only [writePacket, base64Encoder.encode]
    rw [if_neg (by decide), if_pos hall]
    show Except.ok (natToDec (98 :: (48 + t.val) :: b64Encode bs).length ++
        58 :: 98 :: (48 + t.val) :: b64Encode bs) = _
    rw [hlen]

/-- Witness for the amended C5 at the U+1F600 payload: string mode gets
length prefix "2", byte mode gets length prefix "10". -/
theorem C5_length_prefix_amended_witness :
    writePacket ⟨4, utf8Bytes [128512], false⟩ =
      .ok (natToDec (1 + ([128512] : List Nat).length) ++
        58 :: (48 + (4 : Fin 7).val) :: utf8Bytes [128512]) ∧
    writePacket ⟨4, [240, 159, 152, 128], true⟩ =
      .ok (natToDec (2 + (([240, 159, 152, 128] : List Nat).length + 2) / 3 * 4) ++
        58 :: 98 :: (48 + (4 : Fin 7).val) :: b64Encode [240, 159, 152, 128]) :=
  C5_length_prefix_amended 4 [128512] [240, 159, 152, 128] (by decide) (by decide)

/-- Claim C6 as stated is false on the code: a payload whose declared
length exceeds the remaining input does not make `ppp.Decode` fail.  On
"3:4a" (length 3 declared, two bytes present) the decoder truncates to
what remains and returns the MESSAGE packet "a", and on "2:" (length 2
declared, nothing present) it returns the empty packet list, both without
error. -/
theorem C6_premature_end_counterexample :
    ppp.Decode [51, 58, 52, 97] = .ok [⟨MESSAGE, [97], false⟩] ∧
    ppp.Decode [50, 58] = .ok [] := by
  constructor
  · show decodeLoop [51, 58, 52, 97] 0 [] = _
    rw [decodeLoop_step_len [51, 58, 52, 97] [52, 97] 3 [] (by decide) rfl]
    rw [decodeLoop_step_packet [52, 97] 3 [] ⟨MESSAGE, [97], false⟩ (by decide) (by decide)
      rfl]
    rw [show (readPacketString [52, 97] 3).2 = ([] : List Nat) from rfl]
    rw [decodeLoop_nil]
    rfl
  · show decodeLoop [50, 58] 0 [] = _
    rw [decodeLoop_step_len [50, 58] [] 2 [] (by decide) rfl]
    rw [decodeLoop_nil]

/-- Claim C6 (amended): an unterminated length prefix is still an error:
on any non-empty input consisting only of decimal digits (so no colon ever
arrives) `ppp.Decode` returns the "invalid payload string" error; but a
declared length exceeding the remaining input after the colon is not
detected (see the counterexample). -/
theorem C6_unterminated_length_amended (input : List Nat) (h1 : input ≠ [])
    (h2 : ∀ b ∈ input, 48 ≤ b ∧ b ≤ 57) :
    ppp.Decode input = .error () := by
  unfold ppp.Decode
  rw [decodeLoop, dif_neg h1, dif_pos rfl]
  have hrl : readPacketLength input = .error () := by
    unfold readPacketLength
    apply readPacketLengthAux_no_colon
    intro b hb
    have := h2 b hb
    omega
  split
  · rename_i e heq
    rfl
  · rename_i x heq
    rw [hrl] at heq
    exact Except.noConfusion heq

/-- Witness for the amended C6: the two-digit input "12" with no colon is
refused. -/
theorem C6_unterminated_length_amended_witness :
    ppp.Decode [49, 50] = .error () :=
  C6_unterminated_length_amended [49, 50] (by decide) (by decide)

/-- Claim C7: whenever `Send` reaches a transport write, the packet it
writes is the MESSAGE packet built from the message, and it goes to the
backup transport whenever one is present, else to the primary. -/
theorem C7_send_routing (s : SocketState) (message : List Nat) (bin : Bool) (t : Nat)
    (p : Packet) (h : socketImpl.Send s message bin = .wrote t p) :
    p = ⟨MESSAGE, message, bin⟩ ∧
    (match s.transportBackup with
     | some b => t = b
     | none => s.transportPrimary = some t) := by
  unfold socketImpl.Send at h
  split at h
  · exact socketImpl.SendResult.noConfusion h
  · cases hback : s.transportBackup with
    | some b =>
      rw [hback] at h
      injection h with h1 h2
      exact ⟨h2.symm, h1.symm⟩
    | none =>
      rw [hback] at h
      cases hprim : s.transportPrimary with
      | some q =>
        rw [hprim] at h
        injection h with h1 h2
        refine ⟨h2.symm, ?_⟩
        show some q = some t
        rw [h1]
      | none =>
        rw [hprim] at h
        exact socketImpl.SendResult.noConfusion h

/-- Witness for C7: with heartbeat tick 0 (the only state in which the
code's inverted guard lets `Send` through), primary 2 and backup 3, the
packet goes to the backup transport 3. -/
theorem C7_send_routing_witness :
    (⟨MESSAGE, [104], false⟩ : Packet) = ⟨MESSAGE, [104], false⟩ ∧
    (match (⟨0, some 2, some 3, 0, 0, 0⟩ : SocketState).transportBackup with
     | some b => 3 = b
     | none => (⟨0, some 2, some 3, 0, 0, 0⟩ : SocketState).transportPrimary = some 3) :=
  C7_send_routing ⟨0, some 2, some 3, 0, 0, 0⟩ [104] false 3 ⟨MESSAGE, [104], false⟩ rfl

/-- Claim C8: the spec says an inbound PING on an OPEN socket refreshes
the heartbeat tick to the current time and writes a PONG carrying the
PING's payload verbatim.  The code writes the verbatim PONG to the current
transport, but the refresh is guarded by the inverted `isHeartbeat()`, so
on an open socket (tick 7, now 9) the tick stays 7 instead of becoming
9. -/
theorem C8_ping_refresh_inverted :
    ∀ bce : Bool,
      socketImpl.accept ⟨7, some 1, none, 0, 0, 0⟩ ⟨PING, [112, 113], false⟩ 9 bce =
        ((⟨7, some 1, none, 0, 0, 0⟩, [Event.wrote 1 ⟨PONG, [112, 113], false⟩]), .ok ()) :=
  fun _ => rfl

/-- Claim C9 as stated is false on the code: when the backup transport's
close returns an error, accept returns that error (part_002 lines
190-192) before the upgrade-handler loop, so the registered upgrade
callback does not fire even though the upgradeEnd hook ran and the backup
was cleared and closed.  Concretely: an upgrading socket (primary 2,
backup 3) with one registered upgrade callback accepts UPGRADE while the
backup's close fails, and the event trace ends at the close, containing
no handler firing. -/
theorem C9_upgrade_close_error_counterexample :
    socketImpl.accept ⟨5, some 2, some 3, 0, 1, 0⟩ ⟨UPGRADE, [], false⟩ 0 true =
      ((⟨5, some 2, none, 0, 1, 0⟩,
        [Event.upgradeEnd 3 2, Event.closedTransport 3]), .error ()) ∧
    Event.firedUpgradeHandler 0 ∉
      [Event.upgradeEnd 3 2, Event.closedTransport 3] :=
  ⟨rfl, by decide⟩

/-- Claim C9 (amended): a socket in the upgrading state (both transports
set) that accepts an UPGRADE packet invokes the `upgradeEnd` hook on the
backup transport with the primary as argument, then clears and closes the
backup; provided the backup's close returns no error, every registered
upgrade callback then fires, in that order (when the close fails, accept
propagates the error and the callbacks are skipped). -/
theorem C9_upgrade_sequence (s : SocketState) (packet : Packet) (now tp tb : Nat)
    (hpk : packet.ptype = UPGRADE)
    (hp : s.transportPrimary = some tp) (hb : s.transportBackup = some tb) :
    socketImpl.accept s packet now false =
      (({ s with transportBackup := none },
        Event.upgradeEnd tb tp :: Event.closedTransport tb ::
          (List.range s.nUpgradeHandlers).map Event.firedUpgradeHandler), .ok ()) := by
  unfold socketImpl.accept
  rw [if_neg (by rw [hpk]; decide), if_pos hpk, hp, hb]
  rfl

/-- Witness for the amended C9: primary 2, backup 3, two registered
upgrade handlers, close succeeding. -/
theorem C9_upgrade_sequence_witness :
    socketImpl.accept ⟨5, some 2, some 3, 0, 2, 0⟩ ⟨UPGRADE, [], false⟩ 0 false =
      ((⟨5, some 2, none, 0, 2, 0⟩,
        Event.upgradeEnd 3 2 :: Event.closedTransport 3 ::
          (List.range 2).map Event.firedUpgradeHandler), .ok ()) :=
  C9_upgrade_sequence ⟨5, some 2, some 3, 0, 2, 0⟩ ⟨UPGRADE, [], false⟩ 0 2 3 rfl rfl rfl

/-- Claim C10: encoding an empty batch with `ppp.Encode` is the
"input packets is empty" error rather than an empty byte string. -/
theorem C10_encode_empty_error : ppp.Encode [] = .error () := rfl
